import Mathlib

/-!
Verification of the doc_deduplicator repository.

Shallow embedding of the Python sources `algos.py`, `common_tools.py`,
`deduplicators.py`, `rnd_deduplicators.py` and `minhash_lsh_dedupe.py`.
Pure functions become Lean functions over `List`/`Finset`; Python floats that
only ever hold ratios of set cardinalities become `ℚ`; raised exceptions become
`Except.error`.  External collaborators (file system, JSON decoding, the
third-party MinHash/LSH libraries, redis) are abstracted as parameters or as
explicit data given to the embedded functions.
-/

/-! ### Python string primitives used by the sources -/

/-- Python `str.lower()`: lower-case every character. -/
def pyLower (s : String) : String := String.mk (s.data.map Char.toLower)

/-- Helper for Python `str.split()` with no separator: `acc` holds the current
word reversed; runs of whitespace are collapsed and empty words are dropped. -/
def splitWsAux : List Char → List Char → List (List Char)
  | [], acc => if acc = [] then [] else [acc.reverse]
  | c :: cs, acc =>
    if c.isWhitespace then
      if acc = [] then splitWsAux cs [] else acc.reverse :: splitWsAux cs []
    else
      splitWsAux cs (c :: acc)

/-- Python `str.split()` with no separator: split on whitespace runs. -/
def pySplit (s : String) : List String := (splitWsAux s.data []).map String.mk

/-- The token list `words = text.lower().split()` computed by `create_ngrams`. -/
def pyWords (text : String) : List String := pySplit (pyLower text)

/-- Python `' '.join(g)`: join a list of words with single spaces. -/
def joinWords : List String → String
  | [] => ""
  | [w] => w
  | w :: ws => w ++ " " ++ joinWords ws

/-- Python `str.strip()`: drop leading and trailing whitespace. -/
def pyStrip (s : String) : String :=
  String.mk (((s.data.dropWhile Char.isWhitespace).reverse.dropWhile Char.isWhitespace).reverse)

/-! ### `create_ngrams` (src/algos.py lines 9-23, src/common_tools.py lines 105-118)

```python
words = text.lower().split()
ngrams = [words[pos:pos + word_ngram] for pos in range(0, len(words) - word_ngram)]
ngrams_set = set([' '.join(g) for g in ngrams])
return ngrams_set
```
-/

/-- Embedding of `create_ngrams`: windows `words[pos:pos + word_ngram]` for
`pos` in `range(0, len(words) - word_ngram)`, each joined with spaces, as a set. -/
def create_ngrams (text : String) (word_ngram : Nat) : Finset String :=
  let words := pyWords text
  let ngrams := (List.range (words.length - word_ngram)).map
    (fun pos => (words.drop pos).take word_ngram)
  (ngrams.map joinWords).toFinset

/-- Modelled from the spec: the Shingler contract of section 4.1, which asks for
the set of ALL contiguous windows of `width` consecutive words (so positions
`0 .. len(words) - width`), each window joined back into a single string.
Used only to compare the specified behaviour with `create_ngrams`. -/
def shingle (text : String) (width : Nat) : Finset String :=
  let words := pyWords text
  if words.length < width then ∅
  else
    ((List.range (words.length - width + 1)).map
      (fun pos => joinWords ((words.drop pos).take width))).toFinset

/-! ### `jaccard` (src/algos.py lines 26-39, src/common_tools.py lines 121-134)

```python
intersection = set_a.intersection(set_b)
union = set_a.union(set_b)
sim = 0 if len(union) == 0 else len(intersection) / len(union)
return sim
```
-/

/-- Embedding of `jaccard`: `0` if the union is empty, otherwise the ratio of
the cardinalities of intersection and union, as an exact rational. -/
def jaccard {α : Type} [DecidableEq α] (set_a set_b : Finset α) : ℚ :=
  let intersection := set_a ∩ set_b
  let union := set_a ∪ set_b
  if union.card = 0 then 0 else (intersection.card : ℚ) / (union.card : ℚ)

/-! ### Claims C1 and C5: the shingler -/

/-- C1 counterexample: `create_ngrams` does NOT return all contiguous windows.
On the two-token text `"a b"` with width 1 the claim predicts the windows at
positions 0 and 1, i.e. `{"a", "b"}` (the value of the spec-modelled
`shingle`), but the code's `range(0, len(words) - word_ngram)` stops before
the last full window and returns only `{"a"}`. -/
theorem create_ngrams_omits_last_window :
    create_ngrams "a b" 1 ≠ shingle "a b" 1 ∧
    create_ngrams "a b" 1 = {"a"} ∧
    shingle "a b" 1 = {"a", "b"} := by
  refine ⟨?_, ?_, ?_⟩ <;> decide

/-- C1 (amended): for every text and width `w`, `create_ngrams` returns exactly
the windows of `w` consecutive words starting at positions
`0 .. len(words) - w - 1` (every full window except the last one), each joined
by single spaces; in particular a text of exactly `w + 1` tokens yields only
the window starting at position 0. -/
theorem create_ngrams_windows (text : String) (w : Nat) :
    (∀ s : String, s ∈ create_ngrams text w ↔
      ∃ pos, pos + w < (pyWords text).length ∧
        s = joinWords (((pyWords text).drop pos).take w))
  ∧ ((pyWords text).length = w + 1 →
      create_ngrams text w = {joinWords ((pyWords text).take w)}) := by
  constructor
  · intro s
    simp only [create_ngrams, List.mem_toFinset, List.mem_map, List.mem_range]
    constructor
    · rintro ⟨g, ⟨pos, hpos, rfl⟩, rfl⟩
      exact ⟨pos, by omega, rfl⟩
    · rintro ⟨pos, hpos, rfl⟩
      exact ⟨((pyWords text).drop pos).take w, ⟨pos, by omega, rfl⟩, rfl⟩
  · intro hlen
    ext s
    simp only [create_ngrams, List.mem_toFinset, List.mem_map, List.mem_range,
      Finset.mem_singleton, hlen]
    constructor
    · rintro ⟨g, ⟨pos, hpos, rfl⟩, rfl⟩
      have : pos = 0 := by omega
      subst this
      simp
    · rintro rfl
      exact ⟨((pyWords text).drop 0).take w, ⟨0, by omega, rfl⟩, by simp⟩

/-- C5: when the whitespace token count of the text is at most the window
width, `create_ngrams` returns the empty set. -/
theorem create_ngrams_short_text_empty (text : String) (w : Nat)
    (h : (pyWords text).length ≤ w) : create_ngrams text w = ∅ := by
  simp only [create_ngrams, Nat.sub_eq_zero_of_le h, List.range_zero,
    List.map_nil, List.toFinset_nil]

/-- Witness for C5 at the concrete three-token text `"one two three"` and
width 3. -/
theorem create_ngrams_short_text_empty_witness :
    (pyWords "one two three").length ≤ 3 ∧ create_ngrams "one two three" 3 = ∅ :=
  ⟨by decide, create_ngrams_short_text_empty "one two three" 3 (by decide)⟩

/-! ### Claims C6, C7, C9: the similarity function -/

/-- C6: `jaccard` is commutative in its two set arguments. -/
theorem jaccard_comm {α : Type} [DecidableEq α] (set_a set_b : Finset α) :
    jaccard set_a set_b = jaccard set_b set_a := by
  simp only [jaccard]
  rw [Finset.inter_comm set_a set_b, Finset.union_comm set_a set_b]

/-- C7: `jaccard A A = 1` for non-empty `A`; `jaccard A B = 0` for disjoint
non-empty `A`, `B`; and `jaccard ∅ ∅` is the defined value `0`. -/
theorem jaccard_values {α : Type} [DecidableEq α] (A B : Finset α) :
    (A ≠ ∅ → jaccard A A = 1)
  ∧ (A ∩ B = ∅ → A ≠ ∅ → B ≠ ∅ → jaccard A B = 0)
  ∧ jaccard (∅ : Finset α) ∅ = 0 := by
  refine ⟨?_, ?_, ?_⟩
  · intro hA
    have hcard : A.card ≠ 0 := by
      simpa [Finset.card_eq_zero] using hA
    simp only [jaccard, Finset.inter_self, Finset.union_self, if_neg hcard]
    exact div_self (by exact_mod_cast hcard)
  · intro hAB hA _hB
    have hucard : (A ∪ B).card ≠ 0 := by
      simp only [ne_eq, Finset.card_eq_zero, Finset.union_eq_empty]
      intro h
      exact hA h.1
    simp only [jaccard, if_neg hucard, hAB, Finset.card_empty, Nat.cast_zero, zero_div]
  · simp [jaccard]

/-- Witness for C7 at concrete sets `{0}` and `{1}` over `ℕ`. -/
theorem jaccard_values_witness :
    jaccard ({0} : Finset ℕ) {0} = 1 ∧ jaccard ({0} : Finset ℕ) {1} = 0 ∧
      jaccard (∅ : Finset ℕ) ∅ = 0 := by
  obtain ⟨h1, h2, h3⟩ := jaccard_values ({0} : Finset ℕ) {1}
  exact ⟨h1 (by decide), h2 (by decide) (by decide) (by decide), h3⟩

/-- C9: the value of `jaccard` always lies in the closed interval `[0, 1]`. -/
theorem jaccard_mem_unit_interval {α : Type} [DecidableEq α] (set_a set_b : Finset α) :
    0 ≤ jaccard set_a set_b ∧ jaccard set_a set_b ≤ 1 := by
  simp only [jaccard]
  by_cases h : (set_a ∪ set_b).card = 0
  · simp [h]
  · simp only [if_neg h]
    have hpos : (0 : ℚ) < ((set_a ∪ set_b).card : ℚ) := by
      exact_mod_cast Nat.pos_of_ne_zero h
    constructor
    · exact div_nonneg (by positivity) (le_of_lt hpos)
    · rw [div_le_one hpos]
      exact_mod_cast Finset.card_le_card Finset.inter_subset_union

/-! ### `jaccard_dedupe` (src/rnd_deduplicators.py lines 19-48)

```python
duplicates = []
for i_doc in range(len(doc_ngrams)):
    for j_doc in range(i_doc + 1, len(doc_ngrams)):
        jaccard_similarity = common_tools.jaccard(doc_ngrams[i_doc][1], doc_ngrams[j_doc][1])
        is_duplicate = jaccard_similarity >= jaccard_threshold
        if is_duplicate:
            duplicates.append((doc_ngrams[i_doc][0], doc_ngrams[j_doc][0], jaccard_similarity))
```

The outer index loop is embedded as head/tail recursion: the outer document is
the list head and the inner loop runs over the tail, which visits exactly the
index pairs `i < j` in the same order.
-/

/-- Body of the inner loop of `jaccard_dedupe`: compare the outer document
`doc_i` with one inner document `doc_j` and emit the triple when the score
reaches the threshold. -/
def dupRow (doc_i : String × Finset String) (jaccard_threshold : ℚ)
    (doc_j : String × Finset String) : Option (String × String × ℚ) :=
  if jaccard_threshold ≤ jaccard doc_i.2 doc_j.2 then
    some (doc_i.1, doc_j.1, jaccard doc_i.2 doc_j.2)
  else none

/-- Embedding of `jaccard_dedupe`: for the corpus given as a list of
`(filename, shingle set)` pairs, append one row per pair `i < j` whose Jaccard
score reaches the threshold. -/
def jaccard_dedupe (doc_ngrams : List (String × Finset String)) (jaccard_threshold : ℚ) :
    List (String × String × ℚ) :=
  match doc_ngrams with
  | [] => []
  | doc_i :: rest =>
      rest.filterMap (dupRow doc_i jaccard_threshold) ++ jaccard_dedupe rest jaccard_threshold

/-- Multiplicity of an element in a list. -/
def countOcc {α : Type} [DecidableEq α] (x : α) : List α → Nat
  | [] => 0
  | y :: ys => (if y = x then 1 else 0) + countOcc x ys

theorem countOcc_cons {α : Type} [DecidableEq α] (x y : α) (l : List α) :
    countOcc x (y :: l) = (if y = x then 1 else 0) + countOcc x l := rfl

theorem countOcc_append {α : Type} [DecidableEq α] (x : α) (l m : List α) :
    countOcc x (l ++ m) = countOcc x l + countOcc x m := by
  induction l with
  | nil => simp [countOcc]
  | cons y ys ih => simp only [List.cons_append, countOcc_cons, ih]; omega

theorem countOcc_eq_zero_of_not_mem {α : Type} [DecidableEq α] {x : α} {l : List α}
    (h : x ∉ l) : countOcc x l = 0 := by
  induction l with
  | nil => rfl
  | cons y ys ih =>
    rcases eq_or_ne y x with rfl | hyx
    · exact absurd (List.mem_cons_self y ys) h
    · rw [countOcc_cons, if_neg hyx, ih (fun hm => h (List.mem_cons_of_mem y hm))]

/-- Membership in the inner loop's output of `jaccard_dedupe`. -/
theorem mem_dupRow_filterMap {doc_i : String × Finset String} {t : ℚ}
    {rest : List (String × Finset String)} {x : String × String × ℚ} :
    x ∈ rest.filterMap (dupRow doc_i t) ↔
      ∃ q ∈ rest, t ≤ jaccard doc_i.2 q.2 ∧ x = (doc_i.1, q.1, jaccard doc_i.2 q.2) := by
  simp only [List.mem_filterMap]
  constructor
  · rintro ⟨q, hq, heq⟩
    unfold dupRow at heq
    split at heq
    · exact ⟨q, hq, by assumption, (Option.some.inj heq).symm⟩
    · cases heq
  · rintro ⟨q, hq, ht, rfl⟩
    exact ⟨q, hq, if_pos ht⟩

/-- In a list whose first components are pairwise distinct, elements with equal
first components are equal. -/
theorem eq_of_map_fst_nodup {α β : Type} {f : α → β} {l : List α}
    (hnd : (l.map f).Nodup) {x y : α} (hx : x ∈ l) (hy : y ∈ l) (hf : f x = f y) :
    x = y := by
  induction l with
  | nil => cases hx
  | cons a l ih =>
    simp only [List.map_cons, List.nodup_cons] at hnd
    rcases List.mem_cons.mp hx with rfl | hx'
    · rcases List.mem_cons.mp hy with rfl | hy'
      · rfl
      · exact absurd (hf ▸ List.mem_map_of_mem f hy') hnd.1
    · rcases List.mem_cons.mp hy with rfl | hy'
      · exact absurd (hf ▸ List.mem_map_of_mem f hx') hnd.1
      · exact ih hnd.2 hx' hy'

/-- Count of one comparison row in the inner loop's output: with pairwise
distinct filenames, the row for inner document `b` appears once when the score
reaches the threshold and not at all otherwise. -/
theorem countOcc_dupRow (c b : String × Finset String) (t : ℚ)
    (rest : List (String × Finset String))
    (hnd : (rest.map Prod.fst).Nodup) (hb : b ∈ rest) :
    countOcc (c.1, b.1, jaccard c.2 b.2) (rest.filterMap (dupRow c t))
      = if t ≤ jaccard c.2 b.2 then 1 else 0 := by
  induction rest with
  | nil => cases hb
  | cons q rs ih =>
    simp only [List.map_cons, List.nodup_cons] at hnd
    rw [List.filterMap_cons]
    rcases List.mem_cons.mp hb with rfl | hbrs
    · have hnot : (c.1, b.1, jaccard c.2 b.2) ∉ rs.filterMap (dupRow c t) := by
        intro hmem
        obtain ⟨q', hq', _, heq⟩ := mem_dupRow_filterMap.mp hmem
        have hfst : b.1 = q'.1 := congrArg (fun z => z.2.1) heq
        exact hnd.1 (hfst ▸ List.mem_map_of_mem Prod.fst hq')
      by_cases ht : t ≤ jaccard c.2 b.2
      · simp only [dupRow, if_pos ht, countOcc_cons,
          countOcc_eq_zero_of_not_mem hnot]
        simp
      · simp only [dupRow, if_neg ht, countOcc_eq_zero_of_not_mem hnot]
    · have hne : q.1 ≠ b.1 := by
        intro hqb
        exact hnd.1 (hqb ▸ List.mem_map_of_mem Prod.fst hbrs)
      unfold dupRow
      by_cases ht : t ≤ jaccard c.2 q.2
      · simp only [if_pos ht, countOcc_cons]
        rw [if_neg (by intro h; exact hne (congrArg (fun z => z.2.1) h))]
        simpa using ih hnd.2 hbrs
      · simp only [if_neg ht]
        exact ih hnd.2 hbrs

/-- Every output row of `jaccard_dedupe` comes from an ordered document pair
(the first document precedes the second in the corpus) whose score reaches the
threshold. -/
theorem jaccard_dedupe_mem_shape (docs : List (String × Finset String)) (t : ℚ) :
    ∀ x ∈ jaccard_dedupe docs t,
      ∃ p q, List.Sublist [p, q] docs ∧ x = (p.1, q.1, jaccard p.2 q.2) ∧
        t ≤ jaccard p.2 q.2 := by
  induction docs with
  | nil => intro x hx; simp [jaccard_dedupe] at hx
  | cons c rest ih =>
    intro x hx
    simp only [jaccard_dedupe] at hx
    rcases List.mem_append.mp hx with hx1 | hx2
    · obtain ⟨q, hq, ht, rfl⟩ := mem_dupRow_filterMap.mp hx1
      exact ⟨c, q, List.Sublist.cons₂ c (List.singleton_sublist.mpr hq), rfl, ht⟩
    · obtain ⟨p, q, hsub, rfl, ht⟩ := ih x hx2
      exact ⟨p, q, hsub.cons c, rfl, ht⟩

/-- The first filename of every output row of `jaccard_dedupe` is a filename of
the corpus. -/
theorem jaccard_dedupe_mem_fst {docs : List (String × Finset String)} {t : ℚ}
    {x : String × String × ℚ} (hx : x ∈ jaccard_dedupe docs t) :
    x.1 ∈ docs.map Prod.fst := by
  obtain ⟨p, q, hsub, rfl, _⟩ := jaccard_dedupe_mem_shape docs t x hx
  exact List.mem_map_of_mem Prod.fst (hsub.subset (List.mem_cons_self p [q]))

/-- Multiplicity of each ordered pair's row in the output of `jaccard_dedupe`. -/
theorem countOcc_jaccard_dedupe (t : ℚ) (docs : List (String × Finset String))
    (hnd : (docs.map Prod.fst).Nodup) (a b : String × Finset String)
    (hab : List.Sublist [a, b] docs) :
    countOcc (a.1, b.1, jaccard a.2 b.2) (jaccard_dedupe docs t)
      = if t ≤ jaccard a.2 b.2 then 1 else 0 := by
  induction docs with
  | nil => cases hab
  | cons c rest ih =>
    simp only [jaccard_dedupe]
    rw [countOcc_append]
    simp only [List.map_cons, List.nodup_cons] at hnd
    cases hab with
    | cons _ htail =>
      have ha_mem : a ∈ rest := htail.subset (List.mem_cons_self a [b])
      have hinner : countOcc (a.1, b.1, jaccard a.2 b.2) (rest.filterMap (dupRow c t)) = 0 := by
        apply countOcc_eq_zero_of_not_mem
        intro hmem
        obtain ⟨q', hq', _, heq⟩ := mem_dupRow_filterMap.mp hmem
        have hfst : a.1 = c.1 := congrArg (fun z => z.1) heq
        exact hnd.1 (hfst ▸ List.mem_map_of_mem Prod.fst ha_mem)
      rw [hinner, ih hnd.2 htail]
      omega
    | cons₂ _ htail =>
      have hb_mem : b ∈ rest := List.singleton_sublist.mp htail
      have houter : countOcc (a.1, b.1, jaccard a.2 b.2) (jaccard_dedupe rest t) = 0 := by
        apply countOcc_eq_zero_of_not_mem
        intro hmem
        exact hnd.1 (jaccard_dedupe_mem_fst hmem)
      rw [houter, countOcc_dupRow a b t rest hnd.2 hb_mem]
      omega

/-- C3: with pairwise distinct filenames, the row of an ordered document pair
(first document before the second in the corpus) appears in the output of
`jaccard_dedupe` exactly once when the pair's Jaccard score reaches the
threshold and not at all otherwise; and every output row arises this way from
some ordered pair whose score reaches the threshold. -/
theorem jaccard_dedupe_correct (docs : List (String × Finset String)) (t : ℚ)
    (hnd : (docs.map Prod.fst).Nodup)
    (a b : String × Finset String) (hab : List.Sublist [a, b] docs) :
    countOcc (a.1, b.1, jaccard a.2 b.2) (jaccard_dedupe docs t)
      = (if t ≤ jaccard a.2 b.2 then 1 else 0)
  ∧ ∀ x ∈ jaccard_dedupe docs t,
      ∃ p q, List.Sublist [p, q] docs ∧ x = (p.1, q.1, jaccard p.2 q.2) ∧
        t ≤ jaccard p.2 q.2 :=
  ⟨countOcc_jaccard_dedupe t docs hnd a b hab, jaccard_dedupe_mem_shape docs t⟩

/-- Witness for C3 at a concrete two-document corpus with identical shingle
sets and threshold 1. -/
theorem jaccard_dedupe_correct_witness :
    countOcc ("a", "b", jaccard ({"x"} : Finset String) {"x"})
        (jaccard_dedupe [("a", {"x"}), ("b", {"x"})] 1)
      = (if (1 : ℚ) ≤ jaccard ({"x"} : Finset String) {"x"} then 1 else 0) :=
  (jaccard_dedupe_correct [("a", {"x"}), ("b", {"x"})] 1 (by decide)
    ("a", {"x"}) ("b", {"x"}) (List.Sublist.refl _)).1

/-! ### `candidate_duplicates` (src/algos.py lines 42-64)

```python
hasher = minhash.MinHasher(seeds=seeds, char_ngram=char_ngram, hashbytes=hashbytes)
if seeds % bands != 0:
    raise ValueError('Seeds has to be a multiple of bands. {} % {} != 0'.format(seeds, bands))

lshcache = cache.Cache(num_bands=bands, hasher=hasher)
for i_line, line in enumerate(document_feed):
    line = line.decode('utf8')
    docid, headline_text = line.split('\t', 1)
    fingerprint = hasher.fingerprint(headline_text.encode('utf8'))
    lshcache.add_fingerprint(fingerprint, doc_id=(i_line, docid))

candidate_pairs = set()
for b in lshcache.bins:
    for bucket_id in b:
        if len(b[bucket_id]) > 1:
            pairs_ = set(itertools.combinations(b[bucket_id], r=2))
            candidate_pairs.update(pairs_)
return candidate_pairs
```

`minhash.MinHasher` and `cache.Cache` are third-party collaborators: the hasher
is abstracted as a function argument and the cache's `bins` (a list of per-band
dictionaries from bucket key to the list of doc ids appended to that bucket) as
a list of bands, each band a list of buckets, each bucket a list of doc ids in
insertion order.
-/

/-- Python `itertools.combinations(l, r=2)`: ordered pairs `(l[i], l[j])` with
`i < j`, in lexicographic index order. -/
def combinations2 {α : Type} : List α → List (α × α)
  | [] => []
  | a :: rest => (rest.map fun b => (a, b)) ++ combinations2 rest

/-- Embedding of the candidate-pair extraction loop of `candidate_duplicates`:
union over all bands and all buckets of size at least 2 of the pair
combinations of the bucket, deduplicated into a set. -/
def candidate_pairs {α : Type} [DecidableEq α] (bins : List (List (List α))) :
    Finset (α × α) :=
  (bins.flatMap fun band =>
    band.flatMap fun bucket =>
      if 1 < bucket.length then combinations2 bucket else []).toFinset

/-- A pair is produced by `combinations2` exactly when its components appear in
the list in that order. -/
theorem combinations2_mem {α : Type} {a b : α} {l : List α} :
    (a, b) ∈ combinations2 l ↔ List.Sublist [a, b] l := by
  induction l with
  | nil =>
    simp only [combinations2, List.not_mem_nil, false_iff]
    intro h
    cases List.sublist_nil.mp h
  | cons c cs ih =>
    simp only [combinations2, List.mem_append, List.mem_map, Prod.mk.injEq, ih]
    constructor
    · rintro (⟨q, hq, rfl, rfl⟩ | hsub)
      · exact List.Sublist.cons₂ _ (List.singleton_sublist.mpr hq)
      · exact hsub.cons c
    · intro hsub
      cases hsub with
      | cons _ htail => exact Or.inr htail
      | cons₂ _ htail => exact Or.inl ⟨b, List.singleton_sublist.mp htail, rfl, rfl⟩

/-- Two distinct members of a list appear in it in one of the two orders. -/
theorem sublist_pair_of_mem {α : Type} {l : List α} {a b : α}
    (ha : a ∈ l) (hb : b ∈ l) (hab : a ≠ b) :
    List.Sublist [a, b] l ∨ List.Sublist [b, a] l := by
  induction l with
  | nil => cases ha
  | cons c cs ih =>
    rcases List.mem_cons.mp ha with rfl | ha'
    · have hb' : b ∈ cs := by
        rcases List.mem_cons.mp hb with rfl | hb'
        · exact absurd rfl hab
        · exact hb'
      exact Or.inl (List.Sublist.cons₂ a (List.singleton_sublist.mpr hb'))
    · rcases List.mem_cons.mp hb with rfl | hb'
      · exact Or.inr (List.Sublist.cons₂ b (List.singleton_sublist.mpr ha'))
      · rcases ih ha' hb' with h | h
        · exact Or.inl (h.cons c)
        · exact Or.inr (h.cons c)

/-- In a list without duplicates, two elements cannot appear in both orders. -/
theorem sublist_pair_antisymm {α : Type} {l : List α} {a b : α} (hnd : l.Nodup)
    (h1 : List.Sublist [a, b] l) (h2 : List.Sublist [b, a] l) : a = b := by
  induction l with
  | nil => cases List.sublist_nil.mp h1
  | cons c cs ih =>
    simp only [List.nodup_cons] at hnd
    cases h1 with
    | cons _ h1tail =>
      cases h2 with
      | cons _ h2tail => exact ih hnd.2 h1tail h2tail
      | cons₂ _ h2tail =>
        have : b ∈ cs := h1tail.subset (List.mem_cons_of_mem a (List.mem_cons_self b []))
        exact absurd this hnd.1
    | cons₂ _ h1tail =>
      cases h2 with
      | cons _ h2tail =>
        have : a ∈ cs := h2tail.subset (List.mem_cons_of_mem b (List.mem_cons_self a []))
        exact absurd this hnd.1
      | cons₂ _ h2tail => rfl

/-- Membership in the candidate set: a pair is emitted exactly when some bucket
of size at least 2 contains its two components in that order. -/
theorem candidate_pairs_mem {α : Type} [DecidableEq α] {bins : List (List (List α))}
    {a b : α} :
    (a, b) ∈ candidate_pairs bins ↔
      ∃ band ∈ bins, ∃ bucket ∈ band, 1 < bucket.length ∧ List.Sublist [a, b] bucket := by
  simp only [candidate_pairs, List.mem_toFinset, List.mem_flatMap]
  constructor
  · rintro ⟨band, hband, bucket, hbucket, hmem⟩
    split at hmem
    · exact ⟨band, hband, bucket, hbucket, by assumption, combinations2_mem.mp hmem⟩
    · cases hmem
  · rintro ⟨band, hband, bucket, hbucket, hlen, hsub⟩
    refine ⟨band, hband, bucket, hbucket, ?_⟩
    rw [if_pos hlen]
    exact combinations2_mem.mpr hsub

/-- C2: over doc ids inserted in a global order without duplicates (so each
bucket lists a subset of the ids in insertion order, as the spec's BandIndex
appends them), the candidate set contains, in exactly one orientation, every
pair of distinct ids that co-occur in some bucket, and nothing else: no
reflexive pair, never both `(a, b)` and `(b, a)`, and every member comes from a
bucket of size at least 2. -/
theorem candidate_duplicates_correct {α : Type} [DecidableEq α]
    (docs : List α) (hnd : docs.Nodup) (bins : List (List (List α)))
    (hb : ∀ band ∈ bins, ∀ bucket ∈ band, List.Sublist bucket docs) :
    (∀ a b, a ≠ b →
      ((∃ band ∈ bins, ∃ bucket ∈ band, a ∈ bucket ∧ b ∈ bucket) ↔
        ((a, b) ∈ candidate_pairs bins ∨ (b, a) ∈ candidate_pairs bins)))
  ∧ (∀ a b, (a, b) ∈ candidate_pairs bins →
      a ≠ b ∧ (b, a) ∉ candidate_pairs bins ∧
      ∃ band ∈ bins, ∃ bucket ∈ band, 1 < bucket.length ∧ a ∈ bucket ∧ b ∈ bucket) := by
  constructor
  · intro a b hab
    constructor
    · rintro ⟨band, hband, bucket, hbucket, ha, hbmem⟩
      rcases sublist_pair_of_mem ha hbmem hab with h | h
      · have hblen : 1 < bucket.length := by
          have := h.length_le
          simp only [List.length_cons, List.length_singleton] at this
          omega
        exact Or.inl (candidate_pairs_mem.mpr ⟨band, hband, bucket, hbucket, hblen, h⟩)
      · have hblen : 1 < bucket.length := by
          have := h.length_le
          simp only [List.length_cons, List.length_singleton] at this
          omega
        exact Or.inr (candidate_pairs_mem.mpr ⟨band, hband, bucket, hbucket, hblen, h⟩)
    · rintro (h | h)
      · obtain ⟨band, hband, bucket, hbucket, _, hsub⟩ := candidate_pairs_mem.mp h
        exact ⟨band, hband, bucket, hbucket, hsub.subset (by simp), hsub.subset (by simp)⟩
      · obtain ⟨band, hband, bucket, hbucket, _, hsub⟩ := candidate_pairs_mem.mp h
        exact ⟨band, hband, bucket, hbucket, hsub.subset (by simp), hsub.subset (by simp)⟩
  · intro a b hmem
    obtain ⟨band, hband, bucket, hbucket, hlen, hsub⟩ := candidate_pairs_mem.mp hmem
    have hsubdocs : List.Sublist [a, b] docs := hsub.trans (hb band hband bucket hbucket)
    have hndab : ([a, b] : List α).Nodup := hnd.sublist hsubdocs
    have hab : a ≠ b := by simpa using hndab
    refine ⟨hab, ?_, band, hband, bucket, hbucket, hlen,
      hsub.subset (by simp), hsub.subset (by simp)⟩
    intro hmem2
    obtain ⟨band2, hband2, bucket2, hbucket2, _, hsub2⟩ := candidate_pairs_mem.mp hmem2
    have hsubdocs2 : List.Sublist [b, a] docs := hsub2.trans (hb band2 hband2 bucket2 hbucket2)
    exact hab (sublist_pair_antisymm hnd hsubdocs hsubdocs2)

/-- Witness for C2 at insertion order `[1, 2]` and a single band with a single
bucket `[1, 2]`. -/
theorem candidate_duplicates_correct_witness :
    (1 : ℕ) ≠ 2 ∧ ((2 : ℕ), (1 : ℕ)) ∉ candidate_pairs [[[1, 2]]] ∧
      ∃ band ∈ [[[1, 2]]], ∃ bucket ∈ band, 1 < bucket.length ∧
        (1 : ℕ) ∈ bucket ∧ 2 ∈ bucket := by
  refine (candidate_duplicates_correct [1, 2] (by decide) [[[1, 2]]] ?_).2 1 2 (by decide)
  intro band hband bucket hbucket
  simp only [List.mem_singleton] at hband
  subst hband
  simp only [List.mem_singleton] at hbucket
  subst hbucket
  exact List.Sublist.refl _

/-! ### Claim C4: the configuration guard of `candidate_duplicates` -/

/-- The ValueError message raised by `candidate_duplicates`:
`'Seeds has to be a multiple of bands. {} % {} != 0'.format(seeds, bands)`. -/
def seedsBandsError (seeds bands : Nat) : String :=
  "Seeds has to be a multiple of bands. " ++ toString seeds ++ " % " ++
    toString bands ++ " != 0"

/-- Embedding of the `candidate_duplicates` pipeline (src/algos.py lines
42-64): the external MinHasher is the function argument `hasher` and the
external LSH cache is the function argument `cacheBins`, mapping the inserted
`((i_line, docid), fingerprint)` records to the per-band buckets.  The feed is
a list of already tab-split `(docid, headline_text)` lines.  The `seeds %
bands` check runs before the ingestion loop; a failing check raises, embedded
as `Except.error`. -/
def candidate_duplicates {Sig : Type} (hasher : String → Sig)
    (cacheBins : List ((Nat × String) × Sig) → List (List (List (Nat × String))))
    (document_feed : List (String × String)) (seeds bands : Nat) :
    Except String (Finset ((Nat × String) × (Nat × String))) :=
  if seeds % bands ≠ 0 then
    Except.error (seedsBandsError seeds bands)
  else
    let inserted := document_feed.enum.map
      (fun p => ((p.1, p.2.1), hasher p.2.2))
    Except.ok (candidate_pairs (cacheBins inserted))

/-- C4: whenever `seeds` is not a multiple of `bands`, `candidate_duplicates`
returns the configuration error, for every feed, every hasher and every cache
behaviour alike — so no fingerprint is computed and nothing reaches the cache. -/
theorem candidate_duplicates_rejects_config {Sig : Type} (hasher : String → Sig)
    (cacheBins : List ((Nat × String) × Sig) → List (List (List (Nat × String))))
    (document_feed : List (String × String)) (seeds bands : Nat)
    (h : seeds % bands ≠ 0) :
    candidate_duplicates hasher cacheBins document_feed seeds bands =
      Except.error (seedsBandsError seeds bands) := by
  simp only [candidate_duplicates, if_pos h]

/-- Witness for C4 at the spec's rejection scenario `seeds = 100`, `bands = 7`
with a one-document feed. -/
theorem candidate_duplicates_rejects_config_witness :
    candidate_duplicates (fun _ => (0 : Nat)) (fun _ => []) [("doc1", "some text")] 100 7 =
      Except.error (seedsBandsError 100 7) :=
  candidate_duplicates_rejects_config (fun _ => (0 : Nat)) (fun _ => [])
    [("doc1", "some text")] 100 7 (by decide)

/-! ### Claim C8: `parse_data` (src/common_tools.py lines 27-59,
src/deduplicators.py lines 19-49)

```python
for filename in filenames:
    with open(file_path, 'r') as fh:
        try:
            data = json.load(fh)
        except json.decoder.JSONDecodeError:
            continue
        document_id = data.get("id", None)
        content = data.get("content", None)
        if content is None or document_id is None:
            continue
        clean_content = content.lower().strip()
        yield {"document_id": document_id, "content": clean_content, "filename": filename}
```

File reading and JSON decoding are external; each file is abstracted as a
`RawDoc`: either its JSON fails to decode, or it decodes to an object with
optional `id` and `content` fields.
-/

/-- One document file as `parse_data` sees it after the external JSON decode. -/
inductive RawDoc where
  | invalidJson (filename : String)
  | jsonDoc (filename : String) (docId contentField : Option String)
deriving DecidableEq

/-- One record yielded by `parse_data`. -/
structure ParsedDoc where
  document_id : String
  content : String
  filename : String
deriving DecidableEq

/-- The per-file decision of `parse_data`: skip undecodable JSON, skip objects
missing `id` or `content`, otherwise yield the cleaned record. -/
def parseOne : RawDoc → Option ParsedDoc
  | RawDoc.invalidJson _ => none
  | RawDoc.jsonDoc filename docId contentField =>
    match docId, contentField with
    | some document_id, some content =>
        some { document_id := document_id,
               content := pyStrip (pyLower content),
               filename := filename }
    | some _, none => none
    | none, _ => none

/-- Embedding of `parse_data` over a batch of raw document files: the list of
records yielded by the generator. -/
def parse_data (files : List RawDoc) : List ParsedDoc :=
  files.filterMap parseOne

/-- C8: a document that cannot be parsed is skipped on its own — the rest of
the batch parses exactly as if the corrupt document were absent — and every
well-formed document of the batch is still yielded. -/
theorem parse_data_skips_corrupt (pre post : List RawDoc) (bad : RawDoc)
    (hbad : parseOne bad = none) :
    parse_data (pre ++ bad :: post) = parse_data pre ++ parse_data post
  ∧ ∀ d ∈ pre ++ bad :: post, ∀ out, parseOne d = some out →
      out ∈ parse_data (pre ++ bad :: post) := by
  constructor
  · simp only [parse_data, List.filterMap_append, List.filterMap_cons, hbad]
  · intro d hd out hout
    exact List.mem_filterMap.mpr ⟨d, hd, hout⟩

/-- Witness for C8: a batch with one well-formed document on each side of an
invalid-JSON document. -/
theorem parse_data_skips_corrupt_witness :
    parse_data [RawDoc.jsonDoc "a.json" (some "1") (some "X"),
        RawDoc.invalidJson "b.json",
        RawDoc.jsonDoc "c.json" (some "2") (some "y")]
      = parse_data [RawDoc.jsonDoc "a.json" (some "1") (some "X")]
        ++ parse_data [RawDoc.jsonDoc "c.json" (some "2") (some "y")] :=
  (parse_data_skips_corrupt [RawDoc.jsonDoc "a.json" (some "1") (some "X")]
    [RawDoc.jsonDoc "c.json" (some "2") (some "y")]
    (RawDoc.invalidJson "b.json") rfl).1

/-! ### Claim C10: the chained-builder ordering guard of `LshDeduper`
(src/minhash_lsh_dedupe.py lines 24-101)

The datasketch `MinHashLSH` object is abstracted as the type parameter `L`,
minhash signatures as `Sig`, and the library operations (building a minhash
from a document's content, an insertion session, a query) as function
arguments.
-/

/-- The mutable state of an `LshDeduper` instance: `__init__` leaves `lsh` as
`None` and `minhashes` empty; only `create_lsh` and `load_lsh` set `lsh`. -/
structure LshDeduper (L Sig : Type) where
  lsh : Option L
  minhashes : List (String × Sig)

/-- `LshDeduper.__init__`: the fresh deduper state. -/
def LshDeduper.new (L Sig : Type) : LshDeduper L Sig :=
  { lsh := none, minhashes := [] }

/-- `LshDeduper.create_lsh`: store a freshly created MinHashLSH object. -/
def LshDeduper.create_lsh {L Sig : Type} (d : LshDeduper L Sig) (created : L) :
    LshDeduper L Sig :=
  { d with lsh := some created }

/-- `LshDeduper.load_lsh`: store a MinHashLSH object unpickled from disk. -/
def LshDeduper.load_lsh {L Sig : Type} (d : LshDeduper L Sig) (loaded : L) :
    LshDeduper L Sig :=
  { d with lsh := some loaded }

/-- Embedding of `LshDeduper.build_lsh`: extend `minhashes` with one
`(filename, minhash)` entry per parsed document, then raise unless `create_lsh`
or `load_lsh` ran first, and otherwise insert every minhash into the LSH
object. -/
def LshDeduper.build_lsh {L Sig : Type} (d : LshDeduper L Sig)
    (docs : List ParsedDoc) (minhash : String → Sig)
    (insertSession : L → List (String × Sig) → L) :
    Except String (LshDeduper L Sig) :=
  let minhashes := d.minhashes ++ docs.map (fun doc => (doc.filename, minhash doc.content))
  match d.lsh with
  | none => Except.error "Please first 'create_lsh' or 'load_lsh'"
  | some l => Except.ok { lsh := some (insertSession l minhashes), minhashes := minhashes }

/-- Embedding of `LshDeduper.calculate_duplicates`: when no minhashes exist yet
it first calls `build_lsh` (propagating its exception), then queries the LSH
object with each stored minhash and keeps the keys whose query result contains
other keys. -/
def LshDeduper.calculate_duplicates {L Sig : Type} (d : LshDeduper L Sig)
    (docs : List ParsedDoc) (minhash : String → Sig)
    (insertSession : L → List (String × Sig) → L)
    (query : L → Sig → List String) :
    Except String (List (String × Finset String)) :=
  match (if d.minhashes.isEmpty then d.build_lsh docs minhash insertSession
         else Except.ok d) with
  | Except.error e => Except.error e
  | Except.ok d2 =>
    match d2.lsh with
    | none => Except.error "AttributeError: 'NoneType' object has no attribute 'query'"
    | some l =>
      Except.ok (d2.minhashes.filterMap (fun p =>
        let dup := (query l p.2).toFinset \ {p.1}
        if dup = ∅ then none else some (p.1, dup)))

/-- C10: on a deduper whose `lsh` field was never set by `create_lsh` or
`load_lsh` (as in a fresh instance), `build_lsh` raises instead of building an
index, and `calculate_duplicates` on such an instance with no minhashes raises
the same exception through its `build_lsh` call; the fresh state from
`__init__` is exactly of this shape. -/
theorem build_lsh_requires_create_or_load {L Sig : Type} (d : LshDeduper L Sig)
    (h : d.lsh = none) (docs : List ParsedDoc) (minhash : String → Sig)
    (insertSession : L → List (String × Sig) → L)
    (query : L → Sig → List String) :
    d.build_lsh docs minhash insertSession =
      Except.error "Please first 'create_lsh' or 'load_lsh'"
  ∧ (d.minhashes = [] →
      d.calculate_duplicates docs minhash insertSession query =
        Except.error "Please first 'create_lsh' or 'load_lsh'")
  ∧ (LshDeduper.new L Sig).lsh = none ∧ (LshDeduper.new L Sig).minhashes = [] := by
  refine ⟨?_, ?_, rfl, rfl⟩
  · simp only [LshDeduper.build_lsh, h]
  · intro hmh
    simp only [LshDeduper.calculate_duplicates, hmh, List.isEmpty_nil, if_pos,
      LshDeduper.build_lsh, h]

/-- Witness for C10: the fresh instance with concrete collaborator types. -/
theorem build_lsh_requires_create_or_load_witness :
    (LshDeduper.new Unit Nat).build_lsh [] (fun _ => 0) (fun l _ => l) =
      Except.error "Please first 'create_lsh' or 'load_lsh'"
  ∧ (LshDeduper.new Unit Nat).calculate_duplicates [] (fun _ => 0) (fun l _ => l)
      (fun _ _ => []) = Except.error "Please first 'create_lsh' or 'load_lsh'" := by
  obtain ⟨h1, h2, -, -⟩ := build_lsh_requires_create_or_load (LshDeduper.new Unit Nat)
    rfl [] (fun _ => 0) (fun l _ => l) (fun _ _ => [])
  exact ⟨h1, h2 rfl⟩

/-- Witness for the amended C1 at the two-token text `"a b"` with width 1: the
result is the single window at position 0. -/
theorem create_ngrams_windows_witness :
    create_ngrams "a b" 1 = {joinWords ((pyWords "a b").take 1)} :=
  (create_ngrams_windows "a b" 1).2 (by decide)
